import Mathlib

/-!
Shallow embedding of `skimage/measure/_marching_cubes.py`:
`marching_cubes`, `mesh_surface_area` and `correct_mesh_orientation`.

Scalar samples and coordinates are modelled as exact rationals (every
double is a rational); the only irrational steps of the code —
`** 0.5` square roots used for vector normalisation and triangle
areas — are modelled by `Real.sqrt` on the exact value.  External
collaborators (numpy's `np.gradient` composed with scipy's
`ndi.map_coordinates`) are abstracted as an explicit sampler argument
`gradSample`, and the Cython extraction routine
`_marching_cubes_cy.iterate_and_store_3d` (whose source is not part of
the excerpt) as an explicit `iterStore` argument.
-/

/-- A 3D vector / coordinate with exact (rational) components,
standing for a length-3 row of doubles. -/
structure Vec3 where
  x : ℚ
  y : ℚ
  z : ℚ
deriving DecidableEq, Repr

/-- Componentwise subtraction, `u - v`. -/
def vsub (u v : Vec3) : Vec3 := ⟨u.x - v.x, u.y - v.y, u.z - v.z⟩

/-- Cross product `np.cross a b` for 3-vectors. -/
def cross (a b : Vec3) : Vec3 :=
  ⟨a.y * b.z - a.z * b.y, a.z * b.x - a.x * b.z, a.x * b.y - a.y * b.x⟩

/-- Dot product over the exact components. -/
def dotQ (a b : Vec3) : ℚ := a.x * b.x + a.y * b.y + a.z * b.z

/-- Squared Euclidean norm, `(v ** 2).sum()`. -/
def normSq (v : Vec3) : ℚ := v.x * v.x + v.y * v.y + v.z * v.z

/-- Centroid of a triangle: `actual_verts.sum(axis=1) / 3.`. -/
def centroid (v0 v1 v2 : Vec3) : Vec3 :=
  ⟨(v0.x + v1.x + v2.x) / 3, (v0.y + v1.y + v2.y) / 3, (v0.z + v1.z + v2.z) / 3⟩

/-- A triangular face: three integer indices into the vertex list. -/
abbrev Face := ℕ × ℕ × ℕ

/-- Reversal `faces[i, ::-1]`: a face with its three indices reversed. -/
def revFace (f : Face) : Face := (f.2.2, f.2.1, f.1)

/-- Vertex lookup with numpy-style fancy indexing; the model totalises
the out-of-range case with the origin (claims about meshes only ever
use in-range indices). -/
def vget (verts : List Vec3) (i : ℕ) : Vec3 := verts.getD i ⟨0, 0, 0⟩

/-- Whether `pat` occurs at the start of `l` (character lists). -/
def startsWithChars : List Char → List Char → Bool
  | [], _ => true
  | _ :: _, [] => false
  | p :: ps, c :: cs => p == c && startsWithChars ps cs

/-- Whether `pat` occurs as a contiguous substring of `l`
(character lists); the semantics of Python's `pat in s`. -/
def hasSubChars : List Char → List Char → Bool
  | [], pat => pat.isEmpty
  | c :: cs, pat => startsWithChars pat (c :: cs) || hasSubChars cs pat

/-- Python's `pat in s` on strings. -/
def hasSub (s pat : String) : Bool := hasSubChars s.data pat.data

/-- A dense multidimensional array: an explicit shape together with the
flattened data, enough structure for the validation the code performs
(`ndim`, `min`, `max`). -/
structure NDArray where
  shape : List ℕ
  data : List ℚ

/-- Voxel spacing along the three index axes. -/
abbrev Spacing := ℚ × ℚ × ℚ

/-- Normalisation `v / (v ** 2).sum() ** 0.5`, landing in ℝ because of
the square root; a zero vector maps to the zero vector, which (like the
NaNs numpy produces there) can never satisfy a strict sign test. -/
noncomputable def normalizeR (v : Vec3) : ℝ × ℝ × ℝ :=
  ((v.x : ℝ) / Real.sqrt ((normSq v : ℚ) : ℝ),
   (v.y : ℝ) / Real.sqrt ((normSq v : ℚ) : ℝ),
   (v.z : ℝ) / Real.sqrt ((normSq v : ℚ) : ℝ))

/-- Dot product of two real 3-vectors. -/
def dotR (a b : ℝ × ℝ × ℝ) : ℝ := a.1 * b.1 + a.2.1 * b.2.1 + a.2.2 * b.2.2

/-- The per-face dot product `correct_mesh_orientation` tests: the
normalised sampled gradient at the face's centroid dotted with the
normalised geometric normal `cross (v0 - v1) (v0 - v2)`.  `g` is the
gradient sampler (the composite of `np.gradient` and
`ndi.map_coordinates`, external collaborators). -/
noncomputable def faceDot (g : Vec3 → Vec3) (verts : List Vec3) (f : Face) : ℝ :=
  let v0 := vget verts f.1
  let v1 := vget verts f.2.1
  let v2 := vget verts f.2.2
  dotR (normalizeR (g (centroid v0 v1 v2)))
       (normalizeR (cross (vsub v0 v1) (vsub v0 v2)))

/-- Embedding of `correct_mesh_orientation(volume, verts, faces,
spacing, gradient_direction)`.  The gradient computation and centroid sampling
are external library calls abstracted as `gradSample`; the mode
dispatch is Python's substring test `'descent' in gradient_direction` /
`'ascent' in gradient_direction`, and an unrecognised mode raises
`ValueError`, modelled as `.error`.  Flipping reverses the triple of
indices (`faces[indices, ::-1]`) in a fresh list. -/
noncomputable def correct_mesh_orientation (volume : NDArray) (verts : List Vec3)
    (faces : List Face) (spacing : Spacing) (mode : String)
    (gradSample : NDArray → Spacing → Vec3 → Vec3) : Except String (List Face) :=
  if hasSub mode "descent" then
    .ok (faces.map fun f =>
      if faceDot (gradSample volume spacing) verts f < 0 then revFace f else f)
  else if hasSub mode "ascent" then
    .ok (faces.map fun f =>
      if 0 < faceDot (gradSample volume spacing) verts f then revFace f else f)
  else
    .error ("Incorrect input " ++ mode ++ " in gradient_direction, see docstring.")

/-- Fancy indexing `verts[faces]` for one face; numpy raises on an
out-of-range index, modelled as `none`. -/
def faceTriple (verts : List Vec3) (f : Face) : Option (Vec3 × Vec3 × Vec3) :=
  match verts[f.1]?, verts[f.2.1]?, verts[f.2.2]? with
  | some a, some b, some c => some (a, b, c)
  | _, _, _ => none

/-- One face's norm-of-cross-product term
`((np.cross(a, b) ** 2).sum(axis=1) ** 0.5)` with `a = v0 - v1`,
`b = v0 - v2`. -/
noncomputable def triCrossNorm (t : Vec3 × Vec3 × Vec3) : ℝ :=
  Real.sqrt ((normSq (cross (vsub t.1 t.2.1) (vsub t.1 t.2.2)) : ℚ) : ℝ)

/-- Embedding of `mesh_surface_area(verts, faces)`: sums the per-face cross-product
norms and divides the total by 2 at the end, exactly as the code does. -/
noncomputable def mesh_surface_area (verts : List Vec3) (faces : List Face) : Option ℝ :=
  (faces.mapM (faceTriple verts)).map fun ts => (ts.map triCrossNorm).sum / 2

/-- One raw triangle of the triangle soup: three explicit coordinates. -/
abbrev RawTri := Vec3 × Vec3 × Vec3

/-- Modelled from the spec: one step of the Mesh Builder's
exact-coordinate welding map — a coordinate already seen keeps its
first-seen index, a new coordinate is appended and assigned the next
index.  (The implementation lives in `_marching_cubes_cy.pyx`, which is
not part of the excerpt.) -/
def addVert (vs : List Vec3) (p : Vec3) : List Vec3 × ℕ :=
  if p ∈ vs then (vs, vs.indexOf p) else (vs ++ [p], vs.length)

/-- Modelled from the spec: weld one raw triangle's three coordinates
in order, producing the grown vertex list and the index triple. -/
def weldTri (vs : List Vec3) (t : RawTri) : List Vec3 × Face :=
  let r0 := addVert vs t.1
  let r1 := addVert r0.1 t.2.1
  let r2 := addVert r1.1 t.2.2
  (r2.1, (r0.2, r1.2, r2.2))

/-- Modelled from the spec: scan the raw triangle stream in order,
welding each triangle against the vertex list accumulated so far. -/
def weldList (vs : List Vec3) : List RawTri → List Vec3 × List Face
  | [] => (vs, [])
  | t :: ts =>
    let r := weldTri vs t
    let rest := weldList r.1 ts
    (rest.1, r.2 :: rest.2)

/-- Modelled from the spec: `_marching_cubes_cy.unpack_unique_verts`,
the Mesh Builder — deduplicate the triangle soup's vertices by exact
equality in first-seen order and emit index faces. -/
def unpack_unique_verts (raw : List RawTri) : List Vec3 × List Face :=
  weldList [] raw

/-- Embedding of `marching_cubes(volume, level, spacing)`: validate the dimension
count, then the level against the data range, then extract raw
triangles and weld them.  The Cython cell traversal
`iterate_and_store_3d` is not part of the excerpt and is abstracted as
`iterStore`; `volume.min()` / `volume.max()` on a zero-size array raise
in numpy, modelled as `.error`. -/
def marching_cubes (iterStore : NDArray → ℚ → Spacing → List RawTri)
    (volume : NDArray) (level : ℚ) (spacing : Spacing) :
    Except String (List Vec3 × List Face) :=
  if volume.shape.length ≠ 3 then
    .error "Input volume must have 3 dimensions."
  else
    match volume.data.min?, volume.data.max? with
    | some lo, some hi =>
      if level < lo ∨ hi < level then
        .error "Contour level must be within volume data range."
      else
        .ok (unpack_unique_verts (iterStore volume level spacing))
    | _, _ => .error "zero-size array to reduction operation"

/-- Branch characterisation: any mode containing `"descent"` takes the
descent branch. -/
theorem cmo_hasSub_descent (volume : NDArray) (verts : List Vec3) (faces : List Face)
    (spacing : Spacing) (mode : String) (gradSample : NDArray → Spacing → Vec3 → Vec3)
    (h : hasSub mode "descent" = true) :
    correct_mesh_orientation volume verts faces spacing mode gradSample =
      .ok (faces.map fun f =>
        if faceDot (gradSample volume spacing) verts f < 0 then revFace f else f) := by
  simp [correct_mesh_orientation, h]

/-- Branch characterisation: a mode without `"descent"` but containing
`"ascent"` takes the ascent branch. -/
theorem cmo_hasSub_ascent (volume : NDArray) (verts : List Vec3) (faces : List Face)
    (spacing : Spacing) (mode : String) (gradSample : NDArray → Spacing → Vec3 → Vec3)
    (h1 : hasSub mode "descent" = false) (h2 : hasSub mode "ascent" = true) :
    correct_mesh_orientation volume verts faces spacing mode gradSample =
      .ok (faces.map fun f =>
        if 0 < faceDot (gradSample volume spacing) verts f then revFace f else f) := by
  simp [correct_mesh_orientation, h1, h2]

/-- Default-lookup `getD` commutes with `map` at an in-range index. -/
theorem getD_map_of_lt {α : Type} (g : α → α) (d : α) :
    ∀ (l : List α) (i : ℕ), i < l.length → (l.map g).getD i d = g (l.getD i d)
  | [], _, h => absurd h (by simp)
  | _ :: _, 0, _ => rfl
  | _ :: l, i + 1, h => getD_map_of_lt g d l i (by simpa using h)

/-- C8: a volume whose axis count is not exactly 3 is rejected with the
dimension validation error, whatever the traversal routine would do
(the conclusion holds for every `iterStore`, so no cell traversal is
consulted). -/
theorem marching_cubes_rejects_non_3d (iterStore : NDArray → ℚ → Spacing → List RawTri)
    (volume : NDArray) (level : ℚ) (spacing : Spacing)
    (h : volume.shape.length ≠ 3) :
    marching_cubes iterStore volume level spacing =
      .error "Input volume must have 3 dimensions." := by
  simp [marching_cubes, h]

theorem marching_cubes_rejects_non_3d_witness :
    (NDArray.mk [2, 2] [0]).shape.length ≠ 3 ∧
      marching_cubes (fun _ _ _ => []) ⟨[2, 2], [0]⟩ 0 (1, 1, 1) =
        .error "Input volume must have 3 dimensions." :=
  ⟨by decide, marching_cubes_rejects_non_3d _ _ _ _ (by decide)⟩

/-- C7: with a 3-axis volume of minimum `lo` and maximum `hi`, a level
strictly below `lo` or strictly above `hi` is rejected (for every
`iterStore`, i.e. before any traversal), while a level exactly equal to
`lo` or to `hi` is accepted. -/
theorem marching_cubes_level_range (iterStore : NDArray → ℚ → Spacing → List RawTri)
    (volume : NDArray) (level : ℚ) (spacing : Spacing) (lo hi : ℚ)
    (h3 : volume.shape.length = 3)
    (hlo : volume.data.min? = some lo) (hhi : volume.data.max? = some hi) :
    ((level < lo ∨ hi < level) →
        marching_cubes iterStore volume level spacing =
          .error "Contour level must be within volume data range.") ∧
    ((level = lo ∨ level = hi) →
        ∃ m, marching_cubes iterStore volume level spacing = .ok m) := by
  have hmem : lo ∈ volume.data := List.min?_mem (fun a b => min_choice a b) hlo
  have hle : ∀ b ∈ volume.data, b ≤ hi :=
    (List.max?_le_iff (fun _ _ _ => max_le_iff) hhi).1 le_rfl
  have hlohi : lo ≤ hi := hle lo hmem
  constructor
  · intro hout
    simp [marching_cubes, h3, hlo, hhi, hout]
  · intro heq
    have hnot : ¬(level < lo ∨ hi < level) := by
      rcases heq with rfl | rfl
      · rintro (h | h)
        · exact lt_irrefl _ h
        · exact lt_irrefl _ (lt_of_lt_of_le h hlohi)
      · rintro (h | h)
        · exact lt_irrefl _ (lt_of_le_of_lt hlohi h)
        · exact lt_irrefl _ h
    exact ⟨unpack_unique_verts (iterStore volume level spacing),
      by simp [marching_cubes, h3, hlo, hhi, hnot]⟩

theorem marching_cubes_level_range_witness :
    marching_cubes (fun _ _ _ => []) ⟨[1, 1, 2], [0, 1]⟩ (-1) (1, 1, 1) =
        .error "Contour level must be within volume data range." ∧
      ∃ m, marching_cubes (fun _ _ _ => []) ⟨[1, 1, 2], [0, 1]⟩ 0 (1, 1, 1) = .ok m :=
  ⟨(marching_cubes_level_range _ _ _ _ 0 1 (by decide) (by decide) (by decide)).1
      (Or.inl (by norm_num)),
   (marching_cubes_level_range _ _ _ _ 0 1 (by decide) (by decide) (by decide)).2
      (Or.inl rfl)⟩

/-- C1: under either recognized mode the call succeeds and, face by
face, the output is the reversed triple exactly when the dot product of
the normalised sampled gradient at the centroid with the normalised
geometric normal is negative (descent) resp. positive (ascent), and the
unchanged input triple otherwise. -/
theorem cmo_flips_exactly_misoriented (volume : NDArray) (verts : List Vec3)
    (faces : List Face) (spacing : Spacing) (gradSample : NDArray → Spacing → Vec3 → Vec3)
    (mode : String) (hm : mode = "descent" ∨ mode = "ascent") :
    ∃ out, correct_mesh_orientation volume verts faces spacing mode gradSample = .ok out ∧
      out.length = faces.length ∧
      ∀ i, i < faces.length →
        (mode = "descent" →
          out.getD i (0, 0, 0) =
            if faceDot (gradSample volume spacing) verts (faces.getD i (0, 0, 0)) < 0
            then revFace (faces.getD i (0, 0, 0)) else faces.getD i (0, 0, 0)) ∧
        (mode = "ascent" →
          out.getD i (0, 0, 0) =
            if 0 < faceDot (gradSample volume spacing) verts (faces.getD i (0, 0, 0))
            then revFace (faces.getD i (0, 0, 0)) else faces.getD i (0, 0, 0)) := by
  rcases hm with rfl | rfl
  · refine ⟨_, cmo_hasSub_descent _ _ _ _ _ _ (by decide), by simp, ?_⟩
    intro i hi
    exact ⟨fun _ => getD_map_of_lt _ _ faces i hi, fun h => absurd h (by decide)⟩
  · refine ⟨_, cmo_hasSub_ascent _ _ _ _ _ _ (by decide) (by decide), by simp, ?_⟩
    intro i hi
    exact ⟨fun h => absurd h (by decide), fun _ => getD_map_of_lt _ _ faces i hi⟩

theorem cmo_flips_exactly_misoriented_witness :
    ("descent" = "descent" ∨ "descent" = "ascent") ∧
      ∃ out, correct_mesh_orientation ⟨[1, 1, 1], [0]⟩ [] [] (1, 1, 1) "descent"
          (fun _ _ _ => ⟨0, 0, 0⟩) = .ok out ∧
        out.length = ([] : List Face).length ∧
        ∀ i, i < ([] : List Face).length →
          ("descent" = "descent" →
            out.getD i (0, 0, 0) =
              if faceDot ((fun _ _ _ => (⟨0, 0, 0⟩ : Vec3)) (⟨[1, 1, 1], [0]⟩ : NDArray)
                    ((1 : ℚ), (1 : ℚ), (1 : ℚ))) []
                  (([] : List Face).getD i (0, 0, 0)) < 0
              then revFace (([] : List Face).getD i (0, 0, 0))
              else ([] : List Face).getD i (0, 0, 0)) ∧
          ("descent" = "ascent" →
            out.getD i (0, 0, 0) =
              if 0 < faceDot ((fun _ _ _ => (⟨0, 0, 0⟩ : Vec3)) (⟨[1, 1, 1], [0]⟩ : NDArray)
                    ((1 : ℚ), (1 : ℚ), (1 : ℚ))) []
                  (([] : List Face).getD i (0, 0, 0))
              then revFace (([] : List Face).getD i (0, 0, 0))
              else ([] : List Face).getD i (0, 0, 0)) :=
  ⟨Or.inl rfl,
   cmo_flips_exactly_misoriented ⟨[1, 1, 1], [0]⟩ [] [] (1, 1, 1)
     (fun _ _ _ => ⟨0, 0, 0⟩) "descent" (Or.inl rfl)⟩

/-- C6: under either recognized mode the call returns a fresh faces
list of the same length in which every entry is the corresponding input
triple or that triple reversed (the embedding is pure, so the inputs
read are never mutated). -/
theorem cmo_frame (volume : NDArray) (verts : List Vec3) (faces : List Face)
    (spacing : Spacing) (gradSample : NDArray → Spacing → Vec3 → Vec3)
    (mode : String) (hm : mode = "descent" ∨ mode = "ascent") :
    ∃ out, correct_mesh_orientation volume verts faces spacing mode gradSample = .ok out ∧
      out.length = faces.length ∧
      ∀ i, i < faces.length →
        out.getD i (0, 0, 0) = faces.getD i (0, 0, 0) ∨
        out.getD i (0, 0, 0) = revFace (faces.getD i (0, 0, 0)) := by
  rcases hm with rfl | rfl
  · refine ⟨_, cmo_hasSub_descent _ _ _ _ _ _ (by decide), by simp, ?_⟩
    intro i hi
    rw [getD_map_of_lt _ _ faces i hi]
    by_cases hc : faceDot (gradSample volume spacing) verts (faces.getD i (0, 0, 0)) < 0
    · exact Or.inr (by rw [if_pos hc])
    · exact Or.inl (by rw [if_neg hc])
  · refine ⟨_, cmo_hasSub_ascent _ _ _ _ _ _ (by decide) (by decide), by simp, ?_⟩
    intro i hi
    rw [getD_map_of_lt _ _ faces i hi]
    by_cases hc : 0 < faceDot (gradSample volume spacing) verts (faces.getD i (0, 0, 0))
    · exact Or.inr (by rw [if_pos hc])
    · exact Or.inl (by rw [if_neg hc])

theorem cmo_frame_witness :
    ("ascent" = "descent" ∨ "ascent" = "ascent") ∧
      ∃ out, correct_mesh_orientation ⟨[1, 1, 1], [0]⟩ [] [] (1, 1, 1) "ascent"
          (fun _ _ _ => ⟨0, 0, 0⟩) = .ok out ∧
        out.length = ([] : List Face).length ∧
        ∀ i, i < ([] : List Face).length →
          out.getD i (0, 0, 0) = ([] : List Face).getD i (0, 0, 0) ∨
          out.getD i (0, 0, 0) = revFace (([] : List Face).getD i (0, 0, 0)) :=
  ⟨Or.inr rfl,
   cmo_frame ⟨[1, 1, 1], [0]⟩ [] [] (1, 1, 1) (fun _ _ _ => ⟨0, 0, 0⟩) "ascent" (Or.inr rfl)⟩

/-- C2 counterexample: `"gradient descent"` is neither of the two
recognized values, yet the call is accepted (it returns `.ok`), so the
claim that every other mode is rejected is false. -/
theorem cmo_accepts_gradient_descent_cex :
    ("gradient descent" ≠ "descent" ∧ "gradient descent" ≠ "ascent") ∧
      correct_mesh_orientation ⟨[1, 1, 1], [0]⟩ [] [] (1, 1, 1) "gradient descent"
          (fun _ _ _ => ⟨0, 0, 0⟩) = .ok [] := by
  refine ⟨⟨by decide, by decide⟩, ?_⟩
  rw [cmo_hasSub_descent _ _ _ _ _ _ (by decide)]
  rfl

/-- C2 amended: a mode containing neither `"descent"` nor `"ascent"` as
a substring is rejected with the `gradient_direction` `ValueError`
(in the source this check runs only after `np.gradient` and the
centroid sampling have already been computed). -/
theorem cmo_rejects_unrecognized (volume : NDArray) (verts : List Vec3) (faces : List Face)
    (spacing : Spacing) (mode : String) (gradSample : NDArray → Spacing → Vec3 → Vec3)
    (h1 : hasSub mode "descent" = false) (h2 : hasSub mode "ascent" = false) :
    correct_mesh_orientation volume verts faces spacing mode gradSample =
      .error ("Incorrect input " ++ mode ++ " in gradient_direction, see docstring.") := by
  simp [correct_mesh_orientation, h1, h2]

theorem cmo_rejects_unrecognized_witness :
    hasSub "uphill" "descent" = false ∧ hasSub "uphill" "ascent" = false ∧
      correct_mesh_orientation ⟨[1, 1, 1], [0]⟩ [] [] (1, 1, 1) "uphill"
          (fun _ _ _ => ⟨0, 0, 0⟩) =
        .error ("Incorrect input " ++ "uphill" ++ " in gradient_direction, see docstring.") :=
  ⟨by decide, by decide, cmo_rejects_unrecognized _ _ _ _ _ _ (by decide) (by decide)⟩

/-- C10: the mode dispatch is substring containment — any mode
containing `"descent"` is accepted and behaves exactly like the
canonical `"descent"` mode, and any mode containing `"ascent"` but not
`"descent"` is accepted and behaves exactly like `"ascent"`. -/
theorem cmo_mode_substring (volume : NDArray) (verts : List Vec3) (faces : List Face)
    (spacing : Spacing) (gradSample : NDArray → Spacing → Vec3 → Vec3) (mode : String) :
    (hasSub mode "descent" = true →
        correct_mesh_orientation volume verts faces spacing mode gradSample =
          correct_mesh_orientation volume verts faces spacing "descent" gradSample ∧
        ∃ out, correct_mesh_orientation volume verts faces spacing mode gradSample = .ok out) ∧
    (hasSub mode "descent" = false → hasSub mode "ascent" = true →
        correct_mesh_orientation volume verts faces spacing mode gradSample =
          correct_mesh_orientation volume verts faces spacing "ascent" gradSample ∧
        ∃ out, correct_mesh_orientation volume verts faces spacing mode gradSample = .ok out) := by
  constructor
  · intro h
    rw [cmo_hasSub_descent _ _ _ _ _ _ h, cmo_hasSub_descent _ _ _ _ _ _ (by decide)]
    exact ⟨rfl, _, rfl⟩
  · intro h1 h2
    rw [cmo_hasSub_ascent _ _ _ _ _ _ h1 h2,
      cmo_hasSub_ascent _ _ _ _ _ _ (by decide) (by decide)]
    exact ⟨rfl, _, rfl⟩

theorem cmo_mode_substring_witness :
    hasSub "gradient descent" "descent" = true ∧
      (correct_mesh_orientation ⟨[1, 1, 1], [0]⟩ [] [] (1, 1, 1) "gradient descent"
          (fun _ _ _ => ⟨0, 0, 0⟩) =
        correct_mesh_orientation ⟨[1, 1, 1], [0]⟩ [] [] (1, 1, 1) "descent"
          (fun _ _ _ => ⟨0, 0, 0⟩) ∧
      ∃ out, correct_mesh_orientation ⟨[1, 1, 1], [0]⟩ [] [] (1, 1, 1) "gradient descent"
          (fun _ _ _ => ⟨0, 0, 0⟩) = .ok out) :=
  ⟨by decide,
   (cmo_mode_substring ⟨[1, 1, 1], [0]⟩ [] [] (1, 1, 1)
      (fun _ _ _ => ⟨0, 0, 0⟩) "gradient descent").1 (by decide)⟩

/-- Lookup via `getElem?` at an in-range index yields the `getD` value. -/
theorem getElem?_eq_some_getD {α : Type} (d : α) :
    ∀ (l : List α) (i : ℕ), i < l.length → l[i]? = some (l.getD i d)
  | [], _, h => absurd h (by simp)
  | _ :: _, 0, _ => by simp
  | _ :: l, i + 1, h => by
    simpa using getElem?_eq_some_getD d l i (by simpa using h)

/-- In-range fancy indexing succeeds and returns the three vertex
coordinates. -/
theorem faceTriple_of_lt (verts : List Vec3) (f : Face)
    (h0 : f.1 < verts.length) (h1 : f.2.1 < verts.length) (h2 : f.2.2 < verts.length) :
    faceTriple verts f =
      some (vget verts f.1, vget verts f.2.1, vget verts f.2.2) := by
  unfold faceTriple vget
  rw [getElem?_eq_some_getD ⟨0, 0, 0⟩ verts f.1 h0,
    getElem?_eq_some_getD ⟨0, 0, 0⟩ verts f.2.1 h1,
    getElem?_eq_some_getD ⟨0, 0, 0⟩ verts f.2.2 h2]

/-- With all indices in range, the monadic lookup of every face
succeeds. -/
theorem mapM_faceTriple (verts : List Vec3) :
    ∀ faces : List Face,
      (∀ f ∈ faces, f.1 < verts.length ∧ f.2.1 < verts.length ∧ f.2.2 < verts.length) →
      faces.mapM (faceTriple verts) =
        some (faces.map fun f => (vget verts f.1, vget verts f.2.1, vget verts f.2.2)) := by
  intro faces hb
  induction faces with
  | nil => rfl
  | cons f fs ih =>
    have hf := hb f (by simp)
    rw [List.mapM_cons, faceTriple_of_lt verts f hf.1 hf.2.1 hf.2.2,
      ih fun g hg => hb g (by simp [hg])]
    rfl

/-- Summing then halving is summing the halves. -/
theorem list_sum_div_two (l : List ℝ) : l.sum / 2 = (l.map fun x => x / 2).sum := by
  induction l with
  | nil => simp
  | cons a l ih => simp [add_div, ih]

/-- C4: for in-range faces, `mesh_surface_area` returns the sum over
all faces of half the Euclidean norm of `cross (v0 - v1) (v0 - v2)`,
and a degenerate face (zero cross product) contributes exactly 0 with
no special casing. -/
theorem mesh_surface_area_formula (verts : List Vec3) (faces : List Face)
    (hb : ∀ f ∈ faces, f.1 < verts.length ∧ f.2.1 < verts.length ∧ f.2.2 < verts.length) :
    mesh_surface_area verts faces =
      some ((faces.map fun f =>
        Real.sqrt ((normSq (cross (vsub (vget verts f.1) (vget verts f.2.1))
          (vsub (vget verts f.1) (vget verts f.2.2))) : ℚ) : ℝ) / 2).sum) ∧
    ∀ f : Face, cross (vsub (vget verts f.1) (vget verts f.2.1))
        (vsub (vget verts f.1) (vget verts f.2.2)) = ⟨0, 0, 0⟩ →
      Real.sqrt ((normSq (cross (vsub (vget verts f.1) (vget verts f.2.1))
        (vsub (vget verts f.1) (vget verts f.2.2))) : ℚ) : ℝ) / 2 = 0 := by
  constructor
  · unfold mesh_surface_area
    rw [mapM_faceTriple verts faces hb]
    simp only [Option.map_some', Option.some.injEq]
    rw [List.map_map, list_sum_div_two, List.map_map]
    rfl
  · intro f hf
    rw [hf]
    norm_num [normSq]

theorem mesh_surface_area_formula_witness :
    (∀ f ∈ [((0, 1, 2) : Face)],
      f.1 < ([⟨0, 0, 0⟩, ⟨1, 0, 0⟩, ⟨0, 1, 0⟩] : List Vec3).length ∧
      f.2.1 < ([⟨0, 0, 0⟩, ⟨1, 0, 0⟩, ⟨0, 1, 0⟩] : List Vec3).length ∧
      f.2.2 < ([⟨0, 0, 0⟩, ⟨1, 0, 0⟩, ⟨0, 1, 0⟩] : List Vec3).length) ∧
    (mesh_surface_area [⟨0, 0, 0⟩, ⟨1, 0, 0⟩, ⟨0, 1, 0⟩] [(0, 1, 2)] =
      some (([((0, 1, 2) : Face)].map fun f =>
        Real.sqrt ((normSq (cross
          (vsub (vget [⟨0, 0, 0⟩, ⟨1, 0, 0⟩, ⟨0, 1, 0⟩] f.1)
            (vget [⟨0, 0, 0⟩, ⟨1, 0, 0⟩, ⟨0, 1, 0⟩] f.2.1))
          (vsub (vget [⟨0, 0, 0⟩, ⟨1, 0, 0⟩, ⟨0, 1, 0⟩] f.1)
            (vget [⟨0, 0, 0⟩, ⟨1, 0, 0⟩, ⟨0, 1, 0⟩] f.2.2))) : ℚ) : ℝ) / 2).sum) ∧
    ∀ f : Face, cross
        (vsub (vget [⟨0, 0, 0⟩, ⟨1, 0, 0⟩, ⟨0, 1, 0⟩] f.1)
          (vget [⟨0, 0, 0⟩, ⟨1, 0, 0⟩, ⟨0, 1, 0⟩] f.2.1))
        (vsub (vget [⟨0, 0, 0⟩, ⟨1, 0, 0⟩, ⟨0, 1, 0⟩] f.1)
          (vget [⟨0, 0, 0⟩, ⟨1, 0, 0⟩, ⟨0, 1, 0⟩] f.2.2)) = ⟨0, 0, 0⟩ →
      Real.sqrt ((normSq (cross
        (vsub (vget [⟨0, 0, 0⟩, ⟨1, 0, 0⟩, ⟨0, 1, 0⟩] f.1)
          (vget [⟨0, 0, 0⟩, ⟨1, 0, 0⟩, ⟨0, 1, 0⟩] f.2.1))
        (vsub (vget [⟨0, 0, 0⟩, ⟨1, 0, 0⟩, ⟨0, 1, 0⟩] f.1)
          (vget [⟨0, 0, 0⟩, ⟨1, 0, 0⟩, ⟨0, 1, 0⟩] f.2.2))) : ℚ) : ℝ) / 2 = 0) :=
  ⟨by decide,
   mesh_surface_area_formula [⟨0, 0, 0⟩, ⟨1, 0, 0⟩, ⟨0, 1, 0⟩] [(0, 1, 2)] (by decide)⟩

/-- C5: `mesh_surface_area` never returns a negative number, and on an
empty faces list it returns exactly 0. -/
theorem mesh_surface_area_nonneg (verts : List Vec3) (faces : List Face) :
    (∀ A : ℝ, mesh_surface_area verts faces = some A → 0 ≤ A) ∧
      mesh_surface_area verts [] = some 0 := by
  constructor
  · intro A hA
    unfold mesh_surface_area at hA
    cases hts : faces.mapM (faceTriple verts) with
    | none => rw [hts] at hA; simp at hA
    | some ts =>
      rw [hts] at hA
      simp only [Option.map_some', Option.some.injEq] at hA
      rw [← hA]
      refine div_nonneg (List.sum_nonneg ?_) (by norm_num)
      intro x hx
      rcases List.mem_map.1 hx with ⟨t, _, rfl⟩
      exact Real.sqrt_nonneg _
  · unfold mesh_surface_area
    rw [show (([] : List Face).mapM (faceTriple verts)) = some [] from rfl]
    simp [zero_div]

theorem mesh_surface_area_nonneg_witness :
    mesh_surface_area [] [] = some 0 ∧ (0 : ℝ) ≤ 0 :=
  ⟨(mesh_surface_area_nonneg [] []).2,
   (mesh_surface_area_nonneg [] []).1 0 (mesh_surface_area_nonneg [] []).2⟩

/-- The centroid does not depend on the order of the three vertices
(swap of the outer two). -/
theorem centroid_perm (v0 v1 v2 : Vec3) : centroid v2 v1 v0 = centroid v0 v1 v2 := by
  simp only [centroid, Vec3.mk.injEq]
  refine ⟨by ring, by ring, by ring⟩

/-- Reversing a triangle negates the cross product of its two edge
vectors. -/
theorem cross_swap (v0 v1 v2 : Vec3) :
    cross (vsub v2 v1) (vsub v2 v0) =
      ⟨-(cross (vsub v0 v1) (vsub v0 v2)).x,
       -(cross (vsub v0 v1) (vsub v0 v2)).y,
       -(cross (vsub v0 v1) (vsub v0 v2)).z⟩ := by
  simp only [cross, vsub, Vec3.mk.injEq]
  refine ⟨by ring, by ring, by ring⟩

/-- The squared norm is invariant under negation. -/
theorem normSq_neg (v : Vec3) : normSq ⟨-v.x, -v.y, -v.z⟩ = normSq v := by
  simp only [normSq]
  ring

/-- Normalisation commutes with negation. -/
theorem normalizeR_neg (v : Vec3) :
    normalizeR ⟨-v.x, -v.y, -v.z⟩ =
      (-(normalizeR v).1, -(normalizeR v).2.1, -(normalizeR v).2.2) := by
  simp only [normalizeR, normSq_neg]
  push_cast
  simp [neg_div]

/-- Negating the second argument negates the dot product. -/
theorem dotR_neg_right (a b : ℝ × ℝ × ℝ) :
    dotR a (-b.1, -b.2.1, -b.2.2) = -dotR a b := by
  simp only [dotR]
  ring

/-- Reversing a face negates its orientation dot product: the centroid
(and hence the sampled gradient) is unchanged while the geometric
normal flips sign. -/
theorem faceDot_revFace (g : Vec3 → Vec3) (verts : List Vec3) (f : Face) :
    faceDot g verts (revFace f) = -faceDot g verts f := by
  simp only [faceDot, revFace]
  rw [centroid_perm, cross_swap, normalizeR_neg, dotR_neg_right]

/-- Reversing a face twice restores it. -/
theorem revFace_revFace (f : Face) : revFace (revFace f) = f := rfl

/-- Mapping a function that fixes every member is the identity. -/
theorem map_id_of_mem {α : Type} (l : List α) (g : α → α) (h : ∀ a ∈ l, g a = a) :
    l.map g = l := by
  induction l with
  | nil => rfl
  | cons a l ih => simp only [List.map_cons, h a (by simp),
      ih fun b hb => h b (by simp [hb]), List.cons.injEq, and_self]

/-- C3: if every face of the mesh is already correctly oriented under
mode `m` (non-negative dot product for descent, non-positive for
ascent), then applying the corrector with the opposite mode and then
with `m` returns exactly the original faces sequence. -/
theorem cmo_round_trip (volume : NDArray) (verts : List Vec3) (faces : List Face)
    (spacing : Spacing) (gradSample : NDArray → Spacing → Vec3 → Vec3) (m opp : String)
    (hm : (m = "descent" ∧ opp = "ascent") ∨ (m = "ascent" ∧ opp = "descent"))
    (hc : ∀ f ∈ faces,
      (m = "descent" → 0 ≤ faceDot (gradSample volume spacing) verts f) ∧
      (m = "ascent" → faceDot (gradSample volume spacing) verts f ≤ 0)) :
    ∃ mid, correct_mesh_orientation volume verts faces spacing opp gradSample = .ok mid ∧
      correct_mesh_orientation volume verts mid spacing m gradSample = .ok faces := by
  rcases hm with ⟨rfl, rfl⟩ | ⟨rfl, rfl⟩
  · refine ⟨_, cmo_hasSub_ascent _ _ _ _ _ _ (by decide) (by decide), ?_⟩
    rw [cmo_hasSub_descent _ _ _ _ _ _ (by decide)]
    rw [List.map_map]
    congr 1
    apply map_id_of_mem
    intro f hf
    have hd : 0 ≤ faceDot (gradSample volume spacing) verts f := (hc f hf).1 rfl
    simp only [Function.comp]
    by_cases hpos : 0 < faceDot (gradSample volume spacing) verts f
    · rw [if_pos hpos]
      have hneg : faceDot (gradSample volume spacing) verts (revFace f) < 0 := by
        rw [faceDot_revFace]
        linarith
      rw [if_pos hneg, revFace_revFace]
    · rw [if_neg hpos]
      have hz : ¬faceDot (gradSample volume spacing) verts f < 0 := not_lt.2 hd
      rw [if_neg hz]
  · refine ⟨_, cmo_hasSub_descent _ _ _ _ _ _ (by decide), ?_⟩
    rw [cmo_hasSub_ascent _ _ _ _ _ _ (by decide) (by decide)]
    rw [List.map_map]
    congr 1
    apply map_id_of_mem
    intro f hf
    have hd : faceDot (gradSample volume spacing) verts f ≤ 0 := (hc f hf).2 rfl
    simp only [Function.comp]
    by_cases hneg : faceDot (gradSample volume spacing) verts f < 0
    · rw [if_pos hneg]
      have hpos : 0 < faceDot (gradSample volume spacing) verts (revFace f) := by
        rw [faceDot_revFace]
        linarith
      rw [if_pos hpos, revFace_revFace]
    · rw [if_neg hneg]
      have hz : ¬0 < faceDot (gradSample volume spacing) verts f := not_lt.2 hd
      rw [if_neg hz]

theorem cmo_round_trip_witness :
    (∀ f ∈ ([] : List Face),
      ("descent" = "descent" →
        0 ≤ faceDot ((fun _ _ _ => (⟨0, 0, 0⟩ : Vec3)) (⟨[1, 1, 1], [0]⟩ : NDArray)
          ((1 : ℚ), (1 : ℚ), (1 : ℚ))) [] f) ∧
      ("descent" = "ascent" →
        faceDot ((fun _ _ _ => (⟨0, 0, 0⟩ : Vec3)) (⟨[1, 1, 1], [0]⟩ : NDArray)
          ((1 : ℚ), (1 : ℚ), (1 : ℚ))) [] f ≤ 0)) ∧
    ∃ mid, correct_mesh_orientation ⟨[1, 1, 1], [0]⟩ [] [] (1, 1, 1) "ascent"
        (fun _ _ _ => ⟨0, 0, 0⟩) = .ok mid ∧
      correct_mesh_orientation ⟨[1, 1, 1], [0]⟩ [] mid (1, 1, 1) "descent"
        (fun _ _ _ => ⟨0, 0, 0⟩) = .ok [] :=
  ⟨by simp,
   cmo_round_trip ⟨[1, 1, 1], [0]⟩ [] [] (1, 1, 1) (fun _ _ _ => ⟨0, 0, 0⟩)
     "descent" "ascent" (Or.inl ⟨rfl, rfl⟩) (by simp)⟩

/-- Welding one coordinate preserves duplicate-freeness of the vertex
list. -/
theorem addVert_nodup (vs : List Vec3) (p : Vec3) (h : vs.Nodup) :
    (addVert vs p).1.Nodup := by
  unfold addVert
  split
  · exact h
  · next hmem =>
    rw [List.nodup_append]
    exact ⟨h, List.nodup_singleton p, by simp [List.disjoint_singleton, hmem]⟩

/-- Welding one coordinate never shrinks the vertex list. -/
theorem addVert_le (vs : List Vec3) (p : Vec3) :
    vs.length ≤ (addVert vs p).1.length := by
  unfold addVert
  split
  · exact le_rfl
  · simp

/-- The index assigned by welding one coordinate is in range. -/
theorem addVert_lt (vs : List Vec3) (p : Vec3) :
    (addVert vs p).2 < (addVert vs p).1.length := by
  unfold addVert
  split
  · next hmem => exact List.indexOf_lt_length.2 hmem
  · simp

/-- Welding a triangle preserves duplicate-freeness, never shrinks the
vertex list, and emits three in-range indices. -/
theorem weldTri_facts (vs : List Vec3) (t : RawTri) (h : vs.Nodup) :
    (weldTri vs t).1.Nodup ∧ vs.length ≤ (weldTri vs t).1.length ∧
      (weldTri vs t).2.1 < (weldTri vs t).1.length ∧
      (weldTri vs t).2.2.1 < (weldTri vs t).1.length ∧
      (weldTri vs t).2.2.2 < (weldTri vs t).1.length := by
  simp only [weldTri]
  have h0 := addVert_nodup vs t.1 h
  have h1 := addVert_nodup (addVert vs t.1).1 t.2.1 h0
  have h2 := addVert_nodup (addVert (addVert vs t.1).1 t.2.1).1 t.2.2 h1
  have l0 := addVert_le vs t.1
  have l1 := addVert_le (addVert vs t.1).1 t.2.1
  have l2 := addVert_le (addVert (addVert vs t.1).1 t.2.1).1 t.2.2
  have i0 := addVert_lt vs t.1
  have i1 := addVert_lt (addVert vs t.1).1 t.2.1
  have i2 := addVert_lt (addVert (addVert vs t.1).1 t.2.1).1 t.2.2
  exact ⟨h2, le_trans l0 (le_trans l1 l2),
    lt_of_lt_of_le i0 (le_trans l1 l2), lt_of_lt_of_le i1 l2, i2⟩

/-- Scanning the whole raw stream preserves duplicate-freeness, never
shrinks the vertex list, and every emitted face's indices are in range
of the final vertex list. -/
theorem weldList_facts (raw : List RawTri) : ∀ vs : List Vec3, vs.Nodup →
    (weldList vs raw).1.Nodup ∧ vs.length ≤ (weldList vs raw).1.length ∧
      ∀ f ∈ (weldList vs raw).2,
        f.1 < (weldList vs raw).1.length ∧ f.2.1 < (weldList vs raw).1.length ∧
          f.2.2 < (weldList vs raw).1.length := by
  induction raw with
  | nil =>
    intro vs h
    exact ⟨h, le_rfl, by simp [weldList]⟩
  | cons t ts ih =>
    intro vs h
    obtain ⟨wnd, wle, wi0, wi1, wi2⟩ := weldTri_facts vs t h
    obtain ⟨lnd, lle, lf⟩ := ih (weldTri vs t).1 wnd
    simp only [weldList]
    refine ⟨lnd, le_trans wle lle, ?_⟩
    intro f hf
    rcases List.mem_cons.1 hf with rfl | hf
    · exact ⟨lt_of_lt_of_le wi0 lle, lt_of_lt_of_le wi1 lle, lt_of_lt_of_le wi2 lle⟩
    · exact lf f hf

/-- C9: whenever `marching_cubes` succeeds, every index of every
returned face is a valid position in the returned vertex list, and the
vertex list contains no duplicate coordinate (exact equality). -/
theorem marching_cubes_mesh_invariants (iterStore : NDArray → ℚ → Spacing → List RawTri)
    (volume : NDArray) (level : ℚ) (spacing : Spacing)
    (verts : List Vec3) (faces : List Face)
    (h : marching_cubes iterStore volume level spacing = .ok (verts, faces)) :
    (∀ f ∈ faces, f.1 < verts.length ∧ f.2.1 < verts.length ∧ f.2.2 < verts.length) ∧
      verts.Nodup := by
  unfold marching_cubes at h
  split at h
  · exact absurd h (by simp)
  · split at h
    · split at h
      · exact absurd h (by simp)
      · have h' : unpack_unique_verts (iterStore volume level spacing) = (verts, faces) :=
          Except.ok.inj h
        unfold unpack_unique_verts at h'
        obtain ⟨hnd, _, hfaces⟩ :=
          weldList_facts (iterStore volume level spacing) [] List.nodup_nil
        rw [h'] at hnd hfaces
        exact ⟨hfaces, hnd⟩
    · exact absurd h (by simp)

theorem marching_cubes_mesh_invariants_witness :
    marching_cubes (fun _ _ _ => [(⟨0, 0, 0⟩, ⟨1, 0, 0⟩, ⟨0, 1, 0⟩)])
        ⟨[1, 1, 2], [0, 1]⟩ 0 (1, 1, 1) =
      .ok ([⟨0, 0, 0⟩, ⟨1, 0, 0⟩, ⟨0, 1, 0⟩], [(0, 1, 2)]) ∧
    (∀ f ∈ [((0, 1, 2) : Face)],
      f.1 < ([⟨0, 0, 0⟩, ⟨1, 0, 0⟩, ⟨0, 1, 0⟩] : List Vec3).length ∧
      f.2.1 < ([⟨0, 0, 0⟩, ⟨1, 0, 0⟩, ⟨0, 1, 0⟩] : List Vec3).length ∧
      f.2.2 < ([⟨0, 0, 0⟩, ⟨1, 0, 0⟩, ⟨0, 1, 0⟩] : List Vec3).length) ∧
    ([⟨0, 0, 0⟩, ⟨1, 0, 0⟩, ⟨0, 1, 0⟩] : List Vec3).Nodup := by
  have hEval : marching_cubes (fun _ _ _ => [(⟨0, 0, 0⟩, ⟨1, 0, 0⟩, ⟨0, 1, 0⟩)])
      ⟨[1, 1, 2], [0, 1]⟩ 0 (1, 1, 1) =
      .ok ([⟨0, 0, 0⟩, ⟨1, 0, 0⟩, ⟨0, 1, 0⟩], [(0, 1, 2)]) := rfl
  exact ⟨hEval, marching_cubes_mesh_invariants _ _ _ _ _ _ hEval⟩
